/-
Verification of the crossed-wires program (Advent of Code 2019, day 3 style).

The Rust source (src/a3-crossed-wires/src/main.rs) parses two comma-separated
move lists, rasterizes each wire into the ordered list of grid points it
visits, intersects the two point sets (minus the origin), and reports
(a) the intersection closest to the origin by Manhattan distance and
(b) the intersection minimizing the summed step counts along both wires.

This file gives a shallow embedding of that program: each Rust function is
translated into a Lean definition of the same name, with Rust panics modelled
as `Option.none`.  Machine integers are modelled by unbounded `Int`/`Nat`.
-/
import Mathlib

namespace CrossedWires

/-- The Rust struct `Point`: an integer pair (coordinates `x: i32, y: i32`,
modelled by unbounded integers). -/
structure Point where
  x : Int
  y : Int
deriving DecidableEq, Repr

/-- The origin `Point { x: 0, y: 0 }`. -/
def origin : Point := ⟨0, 0⟩

/-- The method `Point::distance_from_origin`: the sum of the absolute values
of the coordinates, `(self.x.abs() + self.y.abs()) as u32`. -/
def Point.distance_from_origin (p : Point) : Nat :=
  p.x.natAbs + p.y.natAbs

/-- The `Ord for Point` implementation: compare by Manhattan distance from
the origin (`self.distance_from_origin().cmp(&other.distance_from_origin())`). -/
def Point.cmp (p q : Point) : Ordering :=
  compare p.distance_from_origin q.distance_from_origin

/-- The Rust enum `Direction` with variants Up, Down, Left, Right. -/
inductive Direction where
  | up
  | down
  | left
  | right
deriving DecidableEq, Repr

/-- Conversion `From<char> for Direction`: `U/D/L/R`, otherwise
`unimplemented!()` (modelled by `none`). -/
def Direction.fromChar (c : Char) : Option Direction :=
  match c with
  | 'U' => some .up
  | 'D' => some .down
  | 'L' => some .left
  | 'R' => some .right
  | _ => none

/-- The Rust struct `Move`: a direction plus a `u32` distance. -/
structure Move where
  direction : Direction
  distance : Nat
deriving DecidableEq, Repr

/-- Wrapping cast of a `u32` value to `i32` (Rust `as i32`, which never
fails): values below `2^31` map to themselves, larger values to their value
minus `2^32`.  The argument is reduced modulo `2^32` first so that the
function agrees with Rust on every representable `u32`. -/
def u32AsI32 (n : Nat) : Int :=
  if n % 2 ^ 32 < 2 ^ 31 then ((n % 2 ^ 32 : Nat) : Int)
  else ((n % 2 ^ 32 : Nat) : Int) - 2 ^ 32

/-- The implementation `Add<Move> for Point`: apply a move's displacement to
a point.  The Rust code displaces by `move_.distance as i32`, so a `u32`
distance of `2^31` or more wraps to a negative displacement. -/
def Point.addMove (p : Point) (m : Move) : Point :=
  match m.direction with
  | .left => ⟨p.x - u32AsI32 m.distance, p.y⟩
  | .right => ⟨p.x + u32AsI32 m.distance, p.y⟩
  | .up => ⟨p.x, p.y + u32AsI32 m.distance⟩
  | .down => ⟨p.x, p.y - u32AsI32 m.distance⟩

/-- Pointwise addition of two points (used for stepping by a unit vector). -/
def Point.addP (p q : Point) : Point :=
  ⟨p.x + q.x, p.y + q.y⟩

/-- Repeat a displacement `s` a number `k` of times (a helper for stating
segment shapes). -/
def Point.smul (k : Nat) (s : Point) : Point :=
  ⟨(k : Int) * s.x, (k : Int) * s.y⟩

/-- The per-axis step used by `all_points_between`:
`match second.cmp(&first) { Greater => 1, Equal => 0, Less => -1 }`. -/
def stepOf (second first : Int) : Int :=
  if first < second then 1 else if second < first then -1 else 0

/-- The `loop` body of `all_points_between`: repeatedly advance `current` by
`step`; stop (without recording) when `second` is reached, otherwise record the
point.  Rust's loop always terminates on the calls the program makes; the
`fuel` argument bounds the iteration count and is chosen large enough that it
is never exhausted on those calls. -/
def loopPoints (step second : Point) : Point → Nat → List Point
  | _, 0 => []
  | current, fuel + 1 =>
    let next := current.addP step
    if next = second then [] else next :: loopPoints step second next fuel

/-- The function `all_points_between(first, second)`: the integer points strictly between
two axis-aligned points, in traversal order.  The Rust function `assert!`s
that the step is zero on at least one axis; that panic is modelled by `none`.
After the assert, points at distance 1 short-circuit to the empty list, and
otherwise the stepping loop runs. -/
def all_points_between (first second : Point) : Option (List Point) :=
  let step : Point := ⟨stepOf second.x first.x, stepOf second.y first.y⟩
  if step.x = 0 ∨ step.y = 0 then
    if (second.x - first.x).natAbs = 1 ∨ (second.y - first.y).natAbs = 1 then
      some []
    else
      some (loopPoints step second first
        ((second.x - first.x).natAbs + (second.y - first.y).natAbs + 1))
  else
    none

/-- The per-wire body of `parse_wires`: fold over the moves, keeping the
running position, and emit for each move the points of its segment
(`all_points_between` followed by the segment endpoint).  A panic inside
`all_points_between` propagates as `none`. -/
def buildWire (current : Point) : List Move → Option (List Point)
  | [] => some []
  | m :: ms => do
    let next := current.addMove m
    let seg ← all_points_between current next
    let rest ← buildWire next ms
    pure (seg ++ next :: rest)

/-- The body of `parse_wires` restricted to a single wire's move list: rasterize the
moves starting from the origin, then insert the origin at the front
(`wire.insert(0, origin)`). -/
def parse_wire (moves : List Move) : Option (List Point) :=
  (buildWire origin moves).map (origin :: ·)

/-- The function `find_intersections`: the distinct points present in both sequences, with
the origin removed.  The Rust `HashSet` intersection is modelled by a
duplicate-free list; its iteration order is unspecified in Rust, so no claim
depends on the order chosen here. -/
def find_intersections (left right : List Point) : List Point :=
  ((left.dedup.filter (· ∈ right)).filter (· ≠ origin))

/-- The function `find_closest_intersection`: `.iter().min()` under `Ord for Point`,
i.e. a minimum of the intersection set by Manhattan distance from the origin. -/
def find_closest_intersection (left right : List Point) : Option Point :=
  (find_intersections left right).argmin Point.distance_from_origin

/-- Iterator method `position`: the (exact, `usize`) index of the first
element of the list equal to `point`, or `none` when absent. -/
def position : List Point → Point → Option Nat
  | [], _ => none
  | p :: ps, point =>
    if p = point then some 0
    else (position ps point).map (· + 1)

/-- The function `length_to_point_in_wire`:
`wire.iter().position(|&p| p == point).unwrap() as u32` — the first-occurrence
index truncated to `u32` by the `as u32` cast; the `.unwrap()` panic on a
missing point is modelled by `none`. -/
def length_to_point_in_wire (wire : List Point) (point : Point) : Option Nat :=
  (position wire point).map (· % 2 ^ 32)

/-- The function `find_minimal_step_intersection`: for each intersection point, sum the
first-occurrence indices in both wires, and take the minimum.  The outer
`Option` is the panic of `length_to_point_in_wire` (`none` = some lookup
panicked); the inner `Option` is the result (`none` = empty intersection).
The two `u32` step counts are added as `u32`, wrapping modulo `2^32`
(release-profile overflow semantics). -/
def find_minimal_step_intersection (left right : List Point) :
    Option (Option Nat) :=
  ((find_intersections left right).mapM fun point => do
    let a ← length_to_point_in_wire left point
    let b ← length_to_point_in_wire right point
    pure ((a + b) % 2 ^ 32)).map List.min?

/-- Rust `u32::from_str` on the character list `s`: an optional leading `'+'`,
then at least one decimal digit, with the value required to fit in 32 bits. -/
def parseU32 (s : List Char) : Option Nat :=
  let digits := if s.head? = some '+' then s.tail else s
  if digits = [] then none
  else if digits.all Char.isDigit then
    let v := digits.foldl (fun acc c => acc * 10 + (c.toNat - '0'.toNat)) 0
    if v < 2 ^ 32 then some v else none
  else none

/-- Conversion `From<&str> for Move`: first character is the direction
(`unimplemented!()` on others, and `.next().unwrap()` panics on the empty
token), the remaining characters parse as a `u32` distance. -/
def Move.fromToken (s : List Char) : Option Move :=
  match s with
  | [] => none
  | c :: rest => do
    let d ← Direction.fromChar c
    let n ← parseU32 rest
    pure ⟨d, n⟩

/-! ### Statement vocabulary

Predicates used to state the verified properties.  They are defined from the
geometry of the problem, independently of the implementation above. -/

/-- A displacement of length one along exactly one axis. -/
def unitStep (s : Point) : Prop :=
  s.x.natAbs + s.y.natAbs = 1

instance : DecidablePred unitStep := fun s => by
  unfold unitStep; infer_instance

/-- The unit displacement of a direction. -/
def dirStep : Direction → Point
  | .up => ⟨0, 1⟩
  | .down => ⟨0, -1⟩
  | .left => ⟨-1, 0⟩
  | .right => ⟨1, 0⟩

/-- The unit vector of the actual displacement of a move, after the u32→i32
wrapping cast: the nominal direction when the cast value is non-negative, its
opposite when the cast wraps to a negative displacement. -/
def moveStep (m : Move) : Point :=
  if 0 ≤ u32AsI32 m.distance then dirStep m.direction
  else ⟨-(dirStep m.direction).x, -(dirStep m.direction).y⟩

/-- A point sequence of `2^32 + 1` points whose last point first occurs at
index `2^32`: a concrete input on which the `as u32` truncation of
first-occurrence indices is observable. -/
def longWire : List Point :=
  (List.range (2 ^ 32)).map (fun i : Nat => ⟨(i : Int), 0⟩) ++ [⟨-1, -1⟩]

/-- Two grid points are adjacent: equal on one axis and exactly one apart on
the other. -/
def adjacent (p q : Point) : Prop :=
  (p.x = q.x ∧ (q.y - p.y).natAbs = 1) ∨ (p.y = q.y ∧ (q.x - p.x).natAbs = 1)

instance : DecidableRel adjacent := fun p q => by
  unfold adjacent; infer_instance

/-- The point `q` lies strictly between `a` and `b` on the axis-aligned open segment
from `a` to `b`. -/
def strictlyBetween (a b q : Point) : Prop :=
  (q.y = a.y ∧ q.y = b.y ∧ ((a.x < q.x ∧ q.x < b.x) ∨ (b.x < q.x ∧ q.x < a.x))) ∨
  (q.x = a.x ∧ q.x = b.x ∧ ((a.y < q.y ∧ q.y < b.y) ∨ (b.y < q.y ∧ q.y < a.y)))

/-- The numeric value of a digit string (most significant first). -/
def decimalValue (l : List Char) : Nat :=
  l.foldl (fun acc c => acc * 10 + (c.toNat - '0'.toNat)) 0

/-- The characters accepted as direction letters. -/
def isDirChar (c : Char) : Prop :=
  c = 'U' ∨ c = 'D' ∨ c = 'L' ∨ c = 'R'

/-- A distance token Rust's `u32::from_str` accepts: after an optional leading
`'+'`, a nonempty string of decimal digits whose value fits in 32 bits. -/
def validU32Token (l : List Char) : Prop :=
  (if l.head? = some '+' then l.tail else l) ≠ [] ∧
  (∀ c ∈ (if l.head? = some '+' then l.tail else l), c.isDigit) ∧
  decimalValue (if l.head? = some '+' then l.tail else l) < 2 ^ 32

/-! ### Basic lemmas about points and steps -/

theorem Point.eta (p : Point) : Point.mk p.x p.y = p := rfl

theorem Point.mk_eq_mk {a b c d : Int} :
    (Point.mk a b = Point.mk c d) ↔ (a = c ∧ b = d) := by
  constructor
  · intro h
    exact ⟨congrArg Point.x h, congrArg Point.y h⟩
  · rintro ⟨rfl, rfl⟩
    rfl

/-- Zeta-reduced equation for `all_points_between` (definitional). -/
theorem all_points_between_def (first second : Point) :
    all_points_between first second =
      if stepOf second.x first.x = 0 ∨ stepOf second.y first.y = 0 then
        if (second.x - first.x).natAbs = 1 ∨ (second.y - first.y).natAbs = 1 then
          some []
        else
          some (loopPoints ⟨stepOf second.x first.x, stepOf second.y first.y⟩
            second first
            ((second.x - first.x).natAbs + (second.y - first.y).natAbs + 1))
      else none := rfl

theorem stepOf_self (a : Int) : stepOf a a = 0 := by
  simp [stepOf]

theorem stepOf_eq_zero_iff (a b : Int) : stepOf a b = 0 ↔ a = b := by
  unfold stepOf
  split_ifs <;> (constructor <;> intro h <;> (try exact h.elim) <;> omega)

theorem stepOf_add_mul (a d : Int) (n : Nat) (hn : 1 ≤ n)
    (hd : d = 1 ∨ d = -1 ∨ d = 0) : stepOf (a + n * d) a = d := by
  rcases hd with h | h | h <;> subst h <;> unfold stepOf <;> split_ifs <;> omega

theorem unitStep_cases (s : Point) (hs : unitStep s) :
    (s.y = 0 ∧ (s.x = 1 ∨ s.x = -1)) ∨ (s.x = 0 ∧ (s.y = 1 ∨ s.y = -1)) := by
  unfold unitStep at hs
  omega

theorem addP_smul_one (a s : Point) : a.addP (Point.smul 1 s) = a.addP s := by
  cases a; cases s
  simp [Point.addP, Point.smul]

theorem addP_smul_succ (a s : Point) (k : Nat) :
    a.addP (Point.smul (k + 1) s) = (a.addP s).addP (Point.smul k s) := by
  cases a; cases s
  simp only [Point.addP, Point.smul, Point.mk_eq_mk]
  push_cast
  constructor <;> ring

theorem addP_smul_ne_self (a s : Point) (hs : unitStep s) (n : Nat)
    (hn : 1 ≤ n) : a.addP (Point.smul n s) ≠ a := by
  intro heq
  have hx := congrArg Point.x heq
  have hy := congrArg Point.y heq
  simp only [Point.addP, Point.smul] at hx hy
  rcases unitStep_cases s hs with ⟨h0, h1 | h1⟩ | ⟨h0, h1 | h1⟩
  · rw [h1] at hx; omega
  · rw [h1] at hx; omega
  · rw [h1] at hy; omega
  · rw [h1] at hy; omega

/-! ### The stepping loop of `all_points_between` -/

theorem loopPoints_spec (s : Point) (hs : unitStep s) :
    ∀ (m fuel : Nat) (current : Point), m + 1 ≤ fuel →
      loopPoints s (current.addP (Point.smul (m + 1) s)) current fuel =
        (List.range m).map (fun k => current.addP (Point.smul (k + 1) s)) := by
  intro m
  induction m with
  | zero =>
    intro fuel current hf
    cases fuel with
    | zero => omega
    | succ f =>
      simp only [loopPoints, List.range_zero, List.map_nil]
      rw [if_pos (addP_smul_one current s).symm]
  | succ m ih =>
    intro fuel current hf
    cases fuel with
    | zero => omega
    | succ f =>
      have hsecond : current.addP (Point.smul (m + 1 + 1) s) =
          (current.addP s).addP (Point.smul (m + 1) s) := addP_smul_succ current s (m + 1)
      have hne : ¬ (current.addP s = current.addP (Point.smul (m + 1 + 1) s)) := by
        rw [hsecond]
        intro h
        exact addP_smul_ne_self (current.addP s) s hs (m + 1) (by omega) h.symm
      simp only [loopPoints]
      rw [if_neg hne, hsecond, ih f (current.addP s) (by omega)]
      rw [List.range_succ_eq_map, List.map_cons, List.map_map]
      refine congrArg₂ _ (addP_smul_one current s).symm ?_
      refine List.map_congr_left fun k _ => ?_
      simp only [Function.comp_apply, Nat.succ_eq_add_one]
      rw [show k + 1 + 1 = k + 2 from rfl, addP_smul_succ current s (k + 1)]

theorem all_points_between_spec (first s : Point) (hs : unitStep s)
    (n : Nat) (hn : 1 ≤ n) :
    all_points_between first (first.addP (Point.smul n s)) =
      some ((List.range (n - 1)).map fun k => first.addP (Point.smul (k + 1) s)) := by
  have hsx : s.x = 1 ∨ s.x = -1 ∨ s.x = 0 := by unfold unitStep at hs; omega
  have hsy : s.y = 1 ∨ s.y = -1 ∨ s.y = 0 := by unfold unitStep at hs; omega
  have hx : stepOf (first.addP (Point.smul n s)).x first.x = s.x :=
    stepOf_add_mul first.x s.x n hn hsx
  have hy : stepOf (first.addP (Point.smul n s)).y first.y = s.y :=
    stepOf_add_mul first.y s.y n hn hsy
  have hcond : s.x = 0 ∨ s.y = 0 := by unfold unitStep at hs; omega
  have hdx : ((first.addP (Point.smul n s)).x - first.x).natAbs = n * s.x.natAbs := by
    have h : (first.addP (Point.smul n s)).x - first.x = (n : Int) * s.x := by
      simp only [Point.addP, Point.smul]; ring
    rw [h, Int.natAbs_mul, Int.natAbs_ofNat]
  have hdy : ((first.addP (Point.smul n s)).y - first.y).natAbs = n * s.y.natAbs := by
    have h : (first.addP (Point.smul n s)).y - first.y = (n : Int) * s.y := by
      simp only [Point.addP, Point.smul]; ring
    rw [h, Int.natAbs_mul, Int.natAbs_ofNat]
  unfold all_points_between
  simp only [hx, hy, Point.eta]
  rw [if_pos hcond]
  rcases unitStep_cases s hs with ⟨h0, h1⟩ | ⟨h0, h1⟩
  · -- horizontal: s.y = 0, s.x = ±1
    have hax : s.x.natAbs = 1 := by rcases h1 with h | h <;> rw [h] <;> rfl
    have hay : s.y.natAbs = 0 := by rw [h0]; rfl
    rw [hax, mul_one] at hdx
    rw [hay, mul_zero] at hdy
    by_cases hn1 : n = 1
    · subst hn1
      rw [if_pos (Or.inl hdx)]
      simp
    · rw [if_neg (by omega)]
      rw [hdx, hdy]
      have hrew : n - 1 + 1 = n := by omega
      have hloop := loopPoints_spec s hs (n - 1) (n + 0 + 1) first (by omega)
      rw [hrew] at hloop
      exact congrArg some hloop
  · -- vertical: s.x = 0, s.y = ±1
    have hax : s.x.natAbs = 0 := by rw [h0]; rfl
    have hay : s.y.natAbs = 1 := by rcases h1 with h | h <;> rw [h] <;> rfl
    rw [hax, mul_zero] at hdx
    rw [hay, mul_one] at hdy
    by_cases hn1 : n = 1
    · subst hn1
      rw [if_pos (Or.inr hdy)]
      simp
    · rw [if_neg (by omega)]
      rw [hdx, hdy]
      have hrew : n - 1 + 1 = n := by omega
      have hloop := loopPoints_spec s hs (n - 1) (0 + n + 1) first (by omega)
      rw [hrew] at hloop
      exact congrArg some hloop

/-! ### The wrapped displacement of a move -/

theorem u32AsI32_ne_zero (n : Nat) (h1 : 1 ≤ n) (h2 : n < 2 ^ 32) :
    u32AsI32 n ≠ 0 := by
  unfold u32AsI32
  rw [Nat.mod_eq_of_lt h2]
  split_ifs <;> omega

theorem u32AsI32_small (n : Nat) (h : n < 2 ^ 31) : u32AsI32 n = (n : Int) := by
  unfold u32AsI32
  rw [Nat.mod_eq_of_lt (by omega), if_pos h]

theorem u32AsI32_large (n : Nat) (h1 : 2 ^ 31 ≤ n) (h2 : n < 2 ^ 32) :
    u32AsI32 n = (n : Int) - 2 ^ 32 := by
  unfold u32AsI32
  rw [Nat.mod_eq_of_lt h2, if_neg (by omega)]

/-! ### Segments generated by a single move -/

theorem dirStep_unit (d : Direction) : unitStep (dirStep d) := by
  cases d <;> rfl

theorem moveStep_unit (m : Move) : unitStep (moveStep m) := by
  obtain ⟨d, n⟩ := m
  unfold moveStep
  split_ifs
  · exact dirStep_unit d
  · cases d <;> rfl

theorem addMove_eq (p : Point) (m : Move) :
    p.addMove m = p.addP (Point.smul (u32AsI32 m.distance).natAbs (moveStep m)) := by
  obtain ⟨d, n⟩ := m
  cases d <;>
    simp only [Point.addMove, moveStep, Point.addP, Point.smul, dirStep] <;>
    generalize u32AsI32 n = w <;>
    split_ifs with h <;>
    simp only [Point.mk_eq_mk, neg_zero, neg_neg, mul_zero, mul_one,
      mul_neg_one, add_zero] <;>
    constructor <;> first | trivial | omega

theorem all_points_between_move (p : Point) (m : Move)
    (hm : u32AsI32 m.distance ≠ 0) :
    all_points_between p (p.addMove m) =
      some ((List.range ((u32AsI32 m.distance).natAbs - 1)).map
        fun k => p.addP (Point.smul (k + 1) (moveStep m))) := by
  rw [addMove_eq]
  refine all_points_between_spec p _ (moveStep_unit m) _ ?_
  rwa [Nat.one_le_iff_ne_zero, Ne, Int.natAbs_eq_zero]

theorem addP_zero (p : Point) : p.addP ⟨0, 0⟩ = p := by
  cases p
  simp [Point.addP]

theorem all_points_between_self (p : Point) : all_points_between p p = some [] := by
  unfold all_points_between
  simp only [stepOf_self]
  rw [if_pos (Or.inl trivial), if_neg (by simp)]
  simp only [sub_self, Int.natAbs_zero]
  show some (loopPoints ⟨0, 0⟩ p p 1) = some []
  simp [loopPoints, addP_zero]

theorem smul_zero_point (s : Point) : Point.smul 0 s = ⟨0, 0⟩ := by
  simp [Point.smul]

theorem addMove_eq_self (p : Point) (m : Move) (h : u32AsI32 m.distance = 0) :
    p.addMove m = p := by
  rw [addMove_eq, h]
  rw [show ((0 : Int).natAbs) = 0 from rfl, smul_zero_point, addP_zero]

theorem all_points_between_move_total (p : Point) (m : Move) :
    ∃ l, all_points_between p (p.addMove m) = some l := by
  by_cases hm : u32AsI32 m.distance = 0
  · rw [addMove_eq_self p m hm]
    exact ⟨[], all_points_between_self p⟩
  · exact ⟨_, all_points_between_move p m hm⟩

/-! ### Wire construction -/

theorem buildWire_total (moves : List Move) :
    ∀ current, ∃ l, buildWire current moves = some l := by
  induction moves with
  | nil => exact fun current => ⟨[], rfl⟩
  | cons m ms ih =>
    intro current
    obtain ⟨seg, hseg⟩ := all_points_between_move_total current m
    obtain ⟨rest, hrest⟩ := ih (current.addMove m)
    exact ⟨seg ++ current.addMove m :: rest, by simp [buildWire, hseg, hrest]⟩

theorem parse_wire_total (moves : List Move) :
    ∃ path, parse_wire moves = some path ∧ path.head? = some origin := by
  obtain ⟨l, hl⟩ := buildWire_total moves origin
  exact ⟨origin :: l, by simp [parse_wire, hl], rfl⟩

/-! ### Geometry of the generated segment points -/

theorem strictlyBetween_smul (p s : Point) (hs : unitStep s) (n k : Nat)
    (hk1 : 1 ≤ k) (hkn : k < n) :
    strictlyBetween p (p.addP (Point.smul n s)) (p.addP (Point.smul k s)) := by
  unfold strictlyBetween
  rcases unitStep_cases s hs with ⟨h0, h1⟩ | ⟨h0, h1⟩
  · left
    simp only [Point.addP, Point.smul, h0, mul_zero, add_zero]
    refine ⟨trivial, trivial, ?_⟩
    rcases h1 with h | h <;> rw [h] <;> simp only [mul_one, mul_neg_one] <;>
      [left; right] <;> omega
  · right
    simp only [Point.addP, Point.smul, h0, mul_zero, add_zero]
    refine ⟨trivial, trivial, ?_⟩
    rcases h1 with h | h <;> rw [h] <;> simp only [mul_one, mul_neg_one] <;>
      [left; right] <;> omega

theorem adjacent_addP (a s : Point) (hs : unitStep s) : adjacent a (a.addP s) := by
  unfold adjacent
  rcases unitStep_cases s hs with ⟨h0, h1⟩ | ⟨h0, h1⟩
  · right
    constructor
    · simp only [Point.addP, h0, add_zero]
    · simp only [Point.addP, add_sub_cancel_left]
      rcases h1 with h | h <;> rw [h] <;> rfl
  · left
    constructor
    · simp only [Point.addP, h0, add_zero]
    · simp only [Point.addP, add_sub_cancel_left]
      rcases h1 with h | h <;> rw [h] <;> rfl

theorem chain_map_range (s : Point) (hs : unitStep s) :
    ∀ (n : Nat) (a : Point),
      List.Chain adjacent a ((List.range n).map fun k => a.addP (Point.smul (k + 1) s)) := by
  intro n
  induction n with
  | zero => intro a; exact List.Chain.nil
  | succ n ih =>
    intro a
    rw [List.range_succ_eq_map, List.map_cons, List.map_map]
    have hcomp : ((fun k => a.addP (Point.smul (k + 1) s)) ∘ Nat.succ) =
        fun k => (a.addP s).addP (Point.smul (k + 1) s) := by
      funext k
      simp only [Function.comp_apply, Nat.succ_eq_add_one]
      rw [addP_smul_succ a s (k + 1)]
    rw [hcomp, addP_smul_one a s]
    exact List.Chain.cons (adjacent_addP a s hs) (ih (a.addP s))

theorem chain_append_cons {α : Type} {R : α → α → Prop} :
    ∀ (l : List α) (a b : α) (l₂ : List α),
      List.Chain R a (l ++ [b]) → List.Chain R b l₂ → List.Chain R a (l ++ b :: l₂) := by
  intro l
  induction l with
  | nil =>
    intro a b l₂ h1 h2
    cases h1 with
    | cons hr _ => exact List.Chain.cons hr h2
  | cons x xs ih =>
    intro a b l₂ h1 h2
    cases h1 with
    | cons hr htail => exact List.Chain.cons hr (ih x b l₂ htail h2)

theorem segment_with_endpoint (current : Point) (m : Move)
    (hm : u32AsI32 m.distance ≠ 0) :
    ((List.range ((u32AsI32 m.distance).natAbs - 1)).map
        fun k => current.addP (Point.smul (k + 1) (moveStep m)))
      ++ [current.addMove m] =
    (List.range (u32AsI32 m.distance).natAbs).map
        fun k => current.addP (Point.smul (k + 1) (moveStep m)) := by
  have hD : 1 ≤ (u32AsI32 m.distance).natAbs := by
    rwa [Nat.one_le_iff_ne_zero, Ne, Int.natAbs_eq_zero]
  conv_rhs => rw [show (u32AsI32 m.distance).natAbs
    = ((u32AsI32 m.distance).natAbs - 1) + 1 by omega]
  rw [List.range_succ, List.map_append]
  refine congrArg _ ?_
  rw [List.map_singleton, addMove_eq,
    show (u32AsI32 m.distance).natAbs - 1 + 1 = (u32AsI32 m.distance).natAbs
      by omega]

theorem buildWire_chain :
    ∀ (moves : List Move), (∀ m ∈ moves, 1 ≤ m.distance ∧ m.distance < 2 ^ 32) →
      ∀ (current : Point) (l : List Point), buildWire current moves = some l →
        List.Chain adjacent current l := by
  intro moves
  induction moves with
  | nil =>
    intro _ current l hl
    simp only [buildWire, Option.some.injEq] at hl
    subst hl
    exact List.Chain.nil
  | cons m ms ih =>
    intro hall current l hl
    have hm : u32AsI32 m.distance ≠ 0 :=
      u32AsI32_ne_zero m.distance (hall m (List.mem_cons_self m ms)).1
        (hall m (List.mem_cons_self m ms)).2
    rw [buildWire, all_points_between_move current m hm] at hl
    obtain ⟨rest, hrest⟩ := buildWire_total ms (current.addMove m)
    rw [hrest] at hl
    simp only [Option.bind_eq_bind, Option.some_bind, Option.pure_def, Option.some.injEq] at hl
    subst hl
    have hseg : List.Chain adjacent current
        (((List.range ((u32AsI32 m.distance).natAbs - 1)).map
            fun k => current.addP (Point.smul (k + 1) (moveStep m)))
          ++ [current.addMove m]) := by
      rw [segment_with_endpoint current m hm]
      exact chain_map_range (moveStep m) (moveStep_unit m)
        (u32AsI32 m.distance).natAbs current
    exact chain_append_cons _ current (current.addMove m) rest hseg
      (ih (fun m' hm' => hall m' (List.mem_cons_of_mem m hm')) (current.addMove m) rest hrest)

/-! ### Claim C4: point count of a rasterized move -/

/-- C4 counterexample: the parseable move `R4294967295` has distance
`N = 2^32 − 1 ≥ 1`, but its `u32` distance wraps through `as i32` to the
displacement `−1`: from the origin the segment ends at `(−1, 0)` and
rasterization appends exactly one point, not `N` points.  So "exactly `N` new
points (`N − 1` intermediates + endpoint)" is false as stated. -/
theorem move_rasterization_overflow_counterexample :
    1 ≤ (Move.mk .right 4294967295).distance ∧
    origin.addMove ⟨.right, 4294967295⟩ = ⟨-1, 0⟩ ∧
    all_points_between origin (origin.addMove ⟨.right, 4294967295⟩) = some [] ∧
    (([] : List Point) ++ [origin.addMove ⟨.right, 4294967295⟩]).length ≠
      (Move.mk .right 4294967295).distance := by
  decide

/-- C4 (amended): for a move of `u32` distance `N` with `1 ≤ N < 2^32`, let
`D` be the magnitude of the wrapped 32-bit signed displacement (`D = N` for
`N < 2^31`, and `D = 2^32 − N` otherwise); rasterization appends exactly `D`
new points: `D − 1` intermediate points strictly between the segment
endpoints followed by the endpoint, and `D = 1` contributes no
intermediates.  For distances below `2^31` the cast is the identity and this
is the original claim. -/
theorem move_rasterization_point_count (p : Point) (m : Move)
    (h1 : 1 ≤ m.distance) (h2 : m.distance < 2 ^ 32) :
    ∃ mids, all_points_between p (p.addMove m) = some mids ∧
      mids.length = (u32AsI32 m.distance).natAbs - 1 ∧
      (∀ q ∈ mids, strictlyBetween p (p.addMove m) q) ∧
      ((u32AsI32 m.distance).natAbs = 1 → mids = []) ∧
      (mids ++ [p.addMove m]).length = (u32AsI32 m.distance).natAbs ∧
      (m.distance < 2 ^ 31 → (u32AsI32 m.distance).natAbs = m.distance) ∧
      (2 ^ 31 ≤ m.distance →
        (u32AsI32 m.distance).natAbs = 2 ^ 32 - m.distance) := by
  have hm : u32AsI32 m.distance ≠ 0 := u32AsI32_ne_zero m.distance h1 h2
  have hD : 1 ≤ (u32AsI32 m.distance).natAbs := by
    rwa [Nat.one_le_iff_ne_zero, Ne, Int.natAbs_eq_zero]
  refine ⟨_, all_points_between_move p m hm, ?_, ?_, ?_, ?_, ?_, ?_⟩
  · simp
  · intro q hq
    simp only [List.mem_map, List.mem_range] at hq
    obtain ⟨k, hk, hkq⟩ := hq
    subst hkq
    rw [addMove_eq]
    exact strictlyBetween_smul p _ (moveStep_unit m) _ (k + 1)
      (by omega) (by omega)
  · intro hone
    simp [hone]
  · simp
    omega
  · intro hs
    rw [u32AsI32_small m.distance hs, Int.natAbs_ofNat]
  · intro hl
    rw [u32AsI32_large m.distance hl h2]
    omega

/-- Witness for C4 (amended) at the concrete move `R3` from the origin. -/
theorem move_rasterization_point_count_witness :
    (1 ≤ (Move.mk .right 3).distance ∧ (Move.mk .right 3).distance < 2 ^ 32) ∧
    (∃ mids, all_points_between origin (origin.addMove ⟨.right, 3⟩) = some mids ∧
      mids.length = (u32AsI32 (Move.mk .right 3).distance).natAbs - 1 ∧
      (∀ q ∈ mids, strictlyBetween origin (origin.addMove ⟨.right, 3⟩) q) ∧
      ((u32AsI32 (Move.mk .right 3).distance).natAbs = 1 → mids = []) ∧
      (mids ++ [origin.addMove ⟨.right, 3⟩]).length =
        (u32AsI32 (Move.mk .right 3).distance).natAbs ∧
      ((Move.mk .right 3).distance < 2 ^ 31 →
        (u32AsI32 (Move.mk .right 3).distance).natAbs =
          (Move.mk .right 3).distance) ∧
      (2 ^ 31 ≤ (Move.mk .right 3).distance →
        (u32AsI32 (Move.mk .right 3).distance).natAbs =
          2 ^ 32 - (Move.mk .right 3).distance)) :=
  ⟨⟨by decide, by decide⟩,
    move_rasterization_point_count origin ⟨.right, 3⟩ (by decide) (by decide)⟩

/-! ### Claim C5: a rasterized wire is a unit-step axis-aligned walk -/

/-- C5: for a move list whose moves all have distance ≥ 1 (distances lie in
the `u32` range `[0, 2^32)`, the type of the Rust `distance` field), every
pair of consecutive points of the rasterized wire path differs on exactly one
axis, by exactly 1.  This holds for the wrapped displacement too: a wrapped
move still walks unit steps, only in the opposite direction. -/
theorem wire_path_is_unit_walk (moves : List Move) (path : List Point)
    (hall : ∀ m ∈ moves, 1 ≤ m.distance ∧ m.distance < 2 ^ 32)
    (hp : parse_wire moves = some path) :
    path.Chain' adjacent := by
  unfold parse_wire at hp
  obtain ⟨l, hl⟩ := buildWire_total moves origin
  rw [hl] at hp
  simp only [Option.map_some', Option.some.injEq] at hp
  subst hp
  exact buildWire_chain moves hall origin l hl

/-- Witness for C5 at the concrete move list `R2,U1`. -/
theorem wire_path_is_unit_walk_witness :
    parse_wire [⟨.right, 2⟩, ⟨.up, 1⟩] =
      some [origin, ⟨1, 0⟩, ⟨2, 0⟩, ⟨2, 1⟩] ∧
    List.Chain' adjacent [origin, ⟨1, 0⟩, ⟨2, 0⟩, ⟨2, 1⟩] :=
  ⟨by decide, wire_path_is_unit_walk [⟨.right, 2⟩, ⟨.up, 1⟩] _
    (by decide) (by decide)⟩

/-! ### Claim C6: every rasterized wire path starts at the origin -/

/-- C6: for every move list, `parse_wire` succeeds and the first element of
the produced path is the origin `(0, 0)`. -/
theorem wire_path_starts_at_origin (moves : List Move) :
    ∃ path, parse_wire moves = some path ∧ path.head? = some origin :=
  parse_wire_total moves

/-! ### Claim C7: when `all_points_between` panics -/

/-- C7 counterexample: with both endpoints equal to the origin the endpoints
do not differ along exactly one axis (they differ along none), yet
`all_points_between` does not fail — it returns `some []`.  So "fails exactly
when the endpoints do not differ along exactly one axis" is false as stated. -/
theorem all_points_between_equal_endpoints_no_panic :
    all_points_between origin origin = some [] ∧
    ¬ ((origin.x ≠ origin.x ∧ origin.y = origin.y) ∨
       (origin.y ≠ origin.y ∧ origin.x = origin.x)) :=
  ⟨all_points_between_self origin, by simp⟩

/-- C7 (amended): `all_points_between` fails (panics on its assert) exactly
when the two endpoints differ in **both** coordinates; endpoints that agree
on at least one axis — including equal endpoints — are accepted. -/
theorem all_points_between_panic_iff (first second : Point) :
    all_points_between first second = none ↔
      (first.x ≠ second.x ∧ first.y ≠ second.y) := by
  rw [all_points_between_def]
  by_cases hcond : stepOf second.x first.x = 0 ∨ stepOf second.y first.y = 0
  · rw [if_pos hcond]
    refine iff_of_false ?_ ?_
    · intro h
      split_ifs at h
    · rintro ⟨ha, hb⟩
      rcases hcond with h | h <;> rw [stepOf_eq_zero_iff] at h
      · exact ha h.symm
      · exact hb h.symm
  · rw [if_neg hcond]
    push_neg at hcond
    obtain ⟨ha, hb⟩ := hcond
    rw [Ne, stepOf_eq_zero_iff] at ha hb
    exact iff_of_true rfl ⟨fun h => ha h.symm, fun h => hb h.symm⟩

/-- Witness for C7 (amended) at concrete diagonal endpoints. -/
theorem all_points_between_panic_iff_witness :
    all_points_between ⟨0, 1⟩ ⟨1, 2⟩ = none :=
  (all_points_between_panic_iff ⟨0, 1⟩ ⟨1, 2⟩).mpr (by decide)

/-! ### Claim C3: the intersection set -/

theorem mem_find_intersections (left right : List Point) (p : Point) :
    p ∈ find_intersections left right ↔ (p ∈ left ∧ p ∈ right ∧ p ≠ origin) := by
  unfold find_intersections
  simp only [List.mem_filter, List.mem_dedup, decide_eq_true_eq, and_assoc]

theorem nodup_find_intersections (left right : List Point) :
    (find_intersections left right).Nodup :=
  ((left.nodup_dedup).filter _).filter _

/-- C3: `find_intersections` returns exactly the distinct points present in
both sequences with the origin removed; it is duplicate-free, and its
membership depends only on which points occur in the inputs — not on their
order or repeat counts. -/
theorem find_intersections_spec (left right : List Point) :
    (∀ p, p ∈ find_intersections left right ↔
      (p ∈ left ∧ p ∈ right ∧ p ≠ origin)) ∧
    (find_intersections left right).Nodup ∧
    (∀ left₂ right₂ : List Point,
      (∀ a, a ∈ left ↔ a ∈ left₂) → (∀ a, a ∈ right ↔ a ∈ right₂) →
      ∀ p, p ∈ find_intersections left right ↔
        p ∈ find_intersections left₂ right₂) := by
  refine ⟨mem_find_intersections left right,
    nodup_find_intersections left right, ?_⟩
  intro left₂ right₂ hl hr p
  rw [mem_find_intersections, mem_find_intersections, hl p, hr p]

/-- Witness for C3: reordering and duplicating the inputs leaves the
intersection set unchanged. -/
theorem find_intersections_spec_witness :
    (∀ a : Point, a ∈ [origin, ⟨1, 0⟩] ↔ a ∈ [⟨1, 0⟩, origin, origin]) ∧
    (∀ a : Point, a ∈ [⟨1, 0⟩, ⟨2, 0⟩] ↔ a ∈ [⟨2, 0⟩, ⟨1, 0⟩, ⟨1, 0⟩]) ∧
    (∀ p : Point, p ∈ find_intersections [origin, ⟨1, 0⟩] [⟨1, 0⟩, ⟨2, 0⟩] ↔
      p ∈ find_intersections [⟨1, 0⟩, origin, origin] [⟨2, 0⟩, ⟨1, 0⟩, ⟨1, 0⟩]) := by
  have h1 : ∀ a : Point, a ∈ [origin, ⟨1, 0⟩] ↔ a ∈ [⟨1, 0⟩, origin, origin] := by
    intro a
    simp only [List.mem_cons, List.not_mem_nil, or_false]
    tauto
  have h2 : ∀ a : Point, a ∈ [⟨1, 0⟩, ⟨2, 0⟩] ↔ a ∈ [⟨2, 0⟩, ⟨1, 0⟩, ⟨1, 0⟩] := by
    intro a
    simp only [List.mem_cons, List.not_mem_nil, or_false]
    tauto
  exact ⟨h1, h2,
    (find_intersections_spec [origin, ⟨1, 0⟩] [⟨1, 0⟩, ⟨2, 0⟩]).2.2 _ _ h1 h2⟩

/-! ### Claim C1: closest intersection -/

/-- C1: `find_closest_intersection` returns `none` exactly when the wires
share no point other than the origin, and any returned point is a shared
non-origin point of minimum Manhattan distance from the origin. -/
theorem find_closest_intersection_spec (left right : List Point) :
    (find_closest_intersection left right = none ↔
      ∀ p, ¬ (p ∈ left ∧ p ∈ right ∧ p ≠ origin)) ∧
    (∀ p, find_closest_intersection left right = some p →
      (p ∈ left ∧ p ∈ right ∧ p ≠ origin) ∧
      ∀ q, q ∈ left → q ∈ right → q ≠ origin →
        p.distance_from_origin ≤ q.distance_from_origin) := by
  constructor
  · rw [find_closest_intersection, List.argmin_eq_none]
    constructor
    · intro h p hp
      have hm := (mem_find_intersections left right p).mpr ⟨hp.1, hp.2.1, hp.2.2⟩
      rw [h] at hm
      exact List.not_mem_nil p hm
    · intro h
      rw [List.eq_nil_iff_forall_not_mem]
      intro p hp
      exact h p ((mem_find_intersections left right p).mp hp)
  · intro p hp
    have hm : p ∈ (find_intersections left right).argmin Point.distance_from_origin :=
      Option.mem_def.mpr hp
    refine ⟨(mem_find_intersections left right p).mp (List.argmin_mem hm), ?_⟩
    intro q hq1 hq2 hq3
    exact List.le_of_mem_argmin
      ((mem_find_intersections left right q).mpr ⟨hq1, hq2, hq3⟩) hm

/-- Witness for C1: for the crossing lists from the source's unit test,
the returned point `(5, 0)` is a shared non-origin point of minimal
Manhattan distance. -/
theorem find_closest_intersection_spec_witness :
    ((⟨5, 0⟩ : Point) ∈ [(⟨0, 6⟩ : Point), ⟨5, 0⟩] ∧
     (⟨5, 0⟩ : Point) ∈ [(⟨5, 0⟩ : Point), ⟨0, 6⟩] ∧ (⟨5, 0⟩ : Point) ≠ origin) ∧
    ∀ q : Point, q ∈ [(⟨0, 6⟩ : Point), ⟨5, 0⟩] → q ∈ [(⟨5, 0⟩ : Point), ⟨0, 6⟩] →
      q ≠ origin →
      (⟨5, 0⟩ : Point).distance_from_origin ≤ q.distance_from_origin :=
  (find_closest_intersection_spec [⟨0, 6⟩, ⟨5, 0⟩] [⟨5, 0⟩, ⟨0, 6⟩]).2
    ⟨5, 0⟩ (by decide)

/-! ### First-occurrence lookups and the step metric -/

theorem position_isSome (wire : List Point) (point : Point) :
    (position wire point).isSome ↔ point ∈ wire := by
  induction wire with
  | nil => simp [position]
  | cons p ps ih =>
    rw [position]
    by_cases h : p = point
    · simp [h]
    · rw [if_neg h]
      have hmap : ((position ps point).map (· + 1)).isSome
          = (position ps point).isSome := by
        cases position ps point <;> rfl
      rw [hmap, ih, List.mem_cons]
      constructor
      · exact Or.inr
      · rintro (rfl | hm)
        · exact absurd rfl h
        · exact hm

theorem length_to_point_isSome (wire : List Point) (point : Point) :
    (length_to_point_in_wire wire point).isSome ↔ point ∈ wire := by
  unfold length_to_point_in_wire
  have hmap : ((position wire point).map (· % 2 ^ 32)).isSome
      = (position wire point).isSome := by
    cases position wire point <;> rfl
  rw [hmap, position_isSome]

theorem position_first (wire : List Point) (point : Point) :
    ∀ i, position wire point = some i →
      wire[i]? = some point ∧ i < wire.length ∧
        ∀ j, j < i → wire[j]? ≠ some point := by
  induction wire with
  | nil => intro i h; simp [position] at h
  | cons p ps ih =>
    intro i h
    rw [position] at h
    by_cases hpq : p = point
    · rw [if_pos hpq] at h
      obtain rfl : 0 = i := by injection h
      exact ⟨by rw [List.getElem?_cons_zero, hpq],
        by simp, by intro j hj; omega⟩
    · rw [if_neg hpq] at h
      cases hps : position ps point with
      | none => rw [hps] at h; exact Option.noConfusion h
      | some i' =>
        rw [hps] at h
        simp only [Option.map_some', Option.some.injEq] at h
        subst h
        obtain ⟨h1, hlen, h2⟩ := ih i' hps
        refine ⟨?_, ?_, ?_⟩
        · rw [List.getElem?_cons_succ]
          exact h1
        · simp only [List.length_cons]
          omega
        · intro j hj
          cases j with
          | zero =>
            rw [List.getElem?_cons_zero]
            intro he
            exact hpq (by injection he)
          | succ j' =>
            rw [List.getElem?_cons_succ]
            exact h2 j' (by omega)

theorem length_to_point_truncates (wire : List Point) (point : Point) :
    ∀ i, length_to_point_in_wire wire point = some i →
      ∃ k, position wire point = some k ∧ i = k % 2 ^ 32 := by
  intro i h
  unfold length_to_point_in_wire at h
  cases hk : position wire point with
  | none => rw [hk] at h; exact Option.noConfusion h
  | some k =>
    rw [hk] at h
    simp only [Option.map_some', Option.some.injEq] at h
    exact ⟨k, rfl, h.symm⟩

theorem mapM_option_forall₂ {α β : Type} (f : α → Option β) :
    ∀ (l : List α) (ys : List β),
      l.mapM f = some ys ↔ List.Forall₂ (fun a b => f a = some b) l ys := by
  intro l
  induction l with
  | nil =>
    intro ys
    rw [List.mapM_nil]
    constructor
    · intro h
      obtain rfl : [] = ys := by injection h
      exact List.Forall₂.nil
    · intro h
      rw [List.forall₂_nil_left_iff] at h
      subst h
      rfl
  | cons a l ih =>
    intro ys
    rw [List.mapM_cons]
    cases hfa : f a with
    | none =>
      constructor
      · intro h
        simp only [hfa, Option.bind_eq_bind, Option.none_bind] at h
        exact Option.noConfusion h
      · intro h
        rw [List.forall₂_cons_left_iff] at h
        obtain ⟨b, u, hab, _, rfl⟩ := h
        rw [hfa] at hab
        exact Option.noConfusion hab
    | some b =>
      cases hl : l.mapM f with
      | none =>
        constructor
        · intro h
          simp only [hfa, hl, Option.bind_eq_bind, Option.some_bind,
            Option.none_bind] at h
          exact Option.noConfusion h
        · intro h
          rw [List.forall₂_cons_left_iff] at h
          obtain ⟨b', u, _, hrest, rfl⟩ := h
          have hmm := (ih u).mpr hrest
          rw [hl] at hmm
          exact Option.noConfusion hmm
      | some bs =>
        simp only [hfa, hl, Option.bind_eq_bind, Option.some_bind,
          Option.pure_def, Option.some.injEq]
        constructor
        · intro h
          subst h
          exact List.Forall₂.cons hfa ((ih bs).mp hl)
        · intro h
          rw [List.forall₂_cons_left_iff] at h
          obtain ⟨b', u, hab, hrest, rfl⟩ := h
          rw [hfa] at hab
          obtain rfl : b = b' := by injection hab
          have hmm := (ih u).mpr hrest
          rw [hl] at hmm
          obtain rfl : bs = u := by injection hmm
          rfl

theorem mapM_option_total {α β : Type} (f : α → Option β) :
    ∀ l : List α, (∀ a ∈ l, ∃ b, f a = some b) → ∃ ys, l.mapM f = some ys := by
  intro l
  induction l with
  | nil => intro _; exact ⟨[], rfl⟩
  | cons a l ih =>
    intro h
    obtain ⟨b, hb⟩ := h a (List.mem_cons_self a l)
    obtain ⟨ys, hys⟩ := ih fun a' ha' => h a' (List.mem_cons_of_mem a ha')
    exact ⟨b :: ys, by rw [List.mapM_cons, hb, hys]; rfl⟩

theorem forall₂_mem_right {α β : Type} {R : α → β → Prop} :
    ∀ {l : List α} {ys : List β}, List.Forall₂ R l ys →
      ∀ b ∈ ys, ∃ a ∈ l, R a b := by
  intro l ys h
  induction h with
  | nil => intro b hb; exact absurd hb (List.not_mem_nil b)
  | cons hab htail ih =>
    intro b hb
    rcases List.mem_cons.mp hb with rfl | hb₂
    · exact ⟨_, List.mem_cons_self _ _, hab⟩
    · obtain ⟨a, ha, hr⟩ := ih b hb₂
      exact ⟨a, List.mem_cons_of_mem _ ha, hr⟩

theorem forall₂_mem_left {α β : Type} {R : α → β → Prop} :
    ∀ {l : List α} {ys : List β}, List.Forall₂ R l ys →
      ∀ a ∈ l, ∃ b ∈ ys, R a b := by
  intro l ys h
  induction h with
  | nil => intro a ha; exact absurd ha (List.not_mem_nil a)
  | cons hab htail ih =>
    intro a ha
    rcases List.mem_cons.mp ha with rfl | ha₂
    · exact ⟨_, List.mem_cons_self _ _, hab⟩
    · obtain ⟨b, hb, hr⟩ := ih a ha₂
      exact ⟨b, List.mem_cons_of_mem _ hb, hr⟩

theorem step_costs_total (left right : List Point) :
    ∃ ys, ((find_intersections left right).mapM fun point => do
        let a ← length_to_point_in_wire left point
        let b ← length_to_point_in_wire right point
        pure ((a + b) % 2 ^ 32)) = some ys := by
  apply mapM_option_total
  intro p hp
  obtain ⟨h1, h2, _⟩ := (mem_find_intersections left right p).mp hp
  obtain ⟨a, ha⟩ := Option.isSome_iff_exists.mp
    ((length_to_point_isSome left p).mpr h1)
  obtain ⟨b, hb⟩ := Option.isSome_iff_exists.mp
    ((length_to_point_isSome right p).mpr h2)
  exact ⟨(a + b) % 2 ^ 32, by simp [ha, hb]⟩

/-! ### Claim C10: the lookups of the step metric never panic -/

/-- C10: every intersection point occurs in both wires' point sequences, so
`length_to_point_in_wire` succeeds on both wires for every point considered
by `find_minimal_step_intersection`; the function's panic branch (the outer
`none`) is unreachable. -/
theorem step_lookup_never_panics (left right : List Point) :
    (∀ p ∈ find_intersections left right,
      (length_to_point_in_wire left p).isSome ∧
      (length_to_point_in_wire right p).isSome) ∧
    find_minimal_step_intersection left right ≠ none := by
  constructor
  · intro p hp
    obtain ⟨h1, h2, _⟩ := (mem_find_intersections left right p).mp hp
    exact ⟨(length_to_point_isSome left p).mpr h1,
      (length_to_point_isSome right p).mpr h2⟩
  · obtain ⟨ys, hys⟩ := step_costs_total left right
    unfold find_minimal_step_intersection
    rw [hys]
    simp

/-- Witness for C10 at the wires `[(0,0),(1,0)]` and `[(1,0),(2,0)]`, whose
intersection point `(1,0)` is found in both wires. -/
theorem step_lookup_never_panics_witness :
    (length_to_point_in_wire [origin, ⟨1, 0⟩] ⟨1, 0⟩).isSome ∧
    (length_to_point_in_wire [⟨1, 0⟩, ⟨2, 0⟩] ⟨1, 0⟩).isSome :=
  (step_lookup_never_panics [origin, ⟨1, 0⟩] [⟨1, 0⟩, ⟨2, 0⟩]).1
    ⟨1, 0⟩ (by decide)

/-! ### A wire long enough to exhibit the u32 index truncation -/

theorem position_append_singleton (l : List Point) (q : Point) (h : q ∉ l) :
    position (l ++ [q]) q = some l.length := by
  induction l with
  | nil => simp [position]
  | cons x xs ih =>
    rw [List.cons_append, position]
    have hxq : ¬ (x = q) := by
      intro hx
      subst hx
      exact h (List.mem_cons_self x xs)
    rw [if_neg hxq, ih fun hq => h (List.mem_cons_of_mem x hq)]
    rfl

theorem not_mem_longWire_head :
    (⟨-1, -1⟩ : Point) ∉ (List.range (2 ^ 32)).map
      (fun i : Nat => (⟨(i : Int), 0⟩ : Point)) := by
  intro hmem
  simp only [List.mem_map, List.mem_range] at hmem
  obtain ⟨i, _, hi⟩ := hmem
  have h0 : (0 : Int) = -1 := congrArg Point.y hi
  exact absurd h0 (by decide)

theorem longWire_position :
    position longWire ⟨-1, -1⟩ = some (2 ^ 32) := by
  unfold longWire
  rw [position_append_singleton _ _ not_mem_longWire_head]
  simp

theorem longWire_truncation :
    length_to_point_in_wire longWire ⟨-1, -1⟩ = some 0 := by
  unfold length_to_point_in_wire
  rw [longWire_position]
  simp

theorem mem_longWire : (⟨-1, -1⟩ : Point) ∈ longWire := by
  unfold longWire
  exact List.mem_append_right _ (List.mem_singleton.mpr rfl)

theorem find_intersections_longWire :
    find_intersections [⟨-1, -1⟩] longWire = [⟨-1, -1⟩] := by
  unfold find_intersections
  have hd : ([(⟨-1, -1⟩ : Point)]).dedup = [⟨-1, -1⟩] := by decide
  rw [hd]
  have h1 : ([(⟨-1, -1⟩ : Point)].filter (· ∈ longWire)) = [⟨-1, -1⟩] := by
    simp [List.filter_cons, mem_longWire]
  rw [h1]
  decide

theorem step_costs_longWire :
    ((find_intersections [(⟨-1, -1⟩ : Point)] longWire).mapM fun point => do
      let a ← length_to_point_in_wire [(⟨-1, -1⟩ : Point)] point
      let b ← length_to_point_in_wire longWire point
      pure ((a + b) % 2 ^ 32)) = some [0] := by
  rw [find_intersections_longWire, List.mapM_cons, List.mapM_nil]
  have h1 : length_to_point_in_wire [(⟨-1, -1⟩ : Point)] ⟨-1, -1⟩ = some 0 := by
    decide
  simp only [h1, longWire_truncation, Option.bind_eq_bind, Option.some_bind,
    Option.pure_def]
  decide

/-! ### Claim C2: minimal combined step count -/

/-- C2 counterexample: for the wires `[(-1,-1)]` and `longWire` the unique
intersection point `(-1,-1)` first occurs at index 0 of the first wire and at
index `2^32` of the second, so the claimed minimum is `0 + 2^32`; but the
program truncates each first-occurrence index to `u32`, and returns `0`. -/
theorem minimal_step_truncation_counterexample :
    position [(⟨-1, -1⟩ : Point)] ⟨-1, -1⟩ = some 0 ∧
    position longWire ⟨-1, -1⟩ = some (2 ^ 32) ∧
    find_intersections [⟨-1, -1⟩] longWire = [⟨-1, -1⟩] ∧
    find_minimal_step_intersection [⟨-1, -1⟩] longWire = some (some 0) ∧
    (0 : Nat) ≠ 0 + 2 ^ 32 := by
  refine ⟨by decide, longWire_position, find_intersections_longWire, ?_, by decide⟩
  unfold find_minimal_step_intersection
  rw [step_costs_longWire]
  rfl

/-- C2 (amended): `find_minimal_step_intersection` returns the empty result
exactly when the intersection set is empty; a returned value is the minimum
over all intersection points of the `u32`-wrapped combined step count
`(first index in A as u32) + (first index in B as u32)` (sum modulo `2^32`);
`length_to_point_in_wire` returns the *first*-occurrence index of the point
truncated modulo `2^32`, and the untruncated index is smaller than the wire's
length and no earlier index holds the point — so for wires of fewer than
`2^32` points the index truncations are identities and the metric is the true
combined first-occurrence step count (the claim as originally stated). -/
theorem find_minimal_step_intersection_spec (left right : List Point) :
    (find_minimal_step_intersection left right = some none ↔
      find_intersections left right = []) ∧
    (∀ v, find_minimal_step_intersection left right = some (some v) →
      (∃ p ∈ find_intersections left right, ∃ a b,
        length_to_point_in_wire left p = some a ∧
        length_to_point_in_wire right p = some b ∧ v = (a + b) % 2 ^ 32) ∧
      (∀ p ∈ find_intersections left right, ∀ a b,
        length_to_point_in_wire left p = some a →
        length_to_point_in_wire right p = some b → v ≤ (a + b) % 2 ^ 32)) ∧
    (∀ (w : List Point) (q : Point) (i : Nat),
      length_to_point_in_wire w q = some i →
      ∃ k, position w q = some k ∧ i = k % 2 ^ 32) ∧
    (∀ (w : List Point) (q : Point) (k : Nat),
      position w q = some k →
      w[k]? = some q ∧ k < w.length ∧ ∀ j, j < k → w[j]? ≠ some q) := by
  obtain ⟨ys, hys⟩ := step_costs_total left right
  have hforall := (mapM_option_forall₂ _ (find_intersections left right) ys).mp hys
  have heq : find_minimal_step_intersection left right = some ys.min? := by
    unfold find_minimal_step_intersection
    rw [hys]
    rfl
  refine ⟨?_, ?_, fun w q i h => length_to_point_truncates w q i h,
    fun w q k h => position_first w q k h⟩
  · rw [heq]
    constructor
    · intro h
      have hmin : ys.min? = none := by injection h
      rw [List.min?_eq_none_iff] at hmin
      subst hmin
      rw [List.forall₂_nil_right_iff] at hforall
      exact hforall
    · intro h
      rw [h, List.forall₂_nil_left_iff] at hforall
      subst hforall
      rfl
  · intro v hv
    rw [heq] at hv
    have hmin : ys.min? = some v := by injection hv
    obtain ⟨hv_mem, hv_le⟩ := (List.min?_eq_some_iff (fun a => le_refl a)
      (fun a b => min_choice a b) (fun a b c => le_min_iff)).mp hmin
    constructor
    · obtain ⟨p, hp, hfp⟩ := forall₂_mem_right hforall v hv_mem
      cases ha : length_to_point_in_wire left p with
      | none => rw [ha] at hfp; exact Option.noConfusion hfp
      | some a =>
        cases hb : length_to_point_in_wire right p with
        | none =>
          rw [ha, hb] at hfp
          exact Option.noConfusion hfp
        | some b =>
          refine ⟨p, hp, a, b, ha, hb, ?_⟩
          rw [ha, hb] at hfp
          have hab : (a + b) % 2 ^ 32 = v := by injection hfp
          omega
    · intro p hp a b ha hb
      obtain ⟨c, hc_mem, hfc⟩ := forall₂_mem_left hforall p hp
      rw [ha, hb] at hfc
      have hcv : (a + b) % 2 ^ 32 = c := by injection hfc
      rw [← hcv] at hc_mem
      exact hv_le ((a + b) % 2 ^ 32) hc_mem

/-- Witness for C2 (amended): for the wires `[(0,0),(1,0)]` and
`[(1,0),(2,0)]` the minimal combined step count 1 decomposes as
first-occurrence indices 1 and 0 of the unique intersection point `(1,0)`
(the truncations are identities here). -/
theorem find_minimal_step_intersection_spec_witness :
    (∃ p ∈ find_intersections [origin, ⟨1, 0⟩] [⟨1, 0⟩, ⟨2, 0⟩], ∃ a b,
      length_to_point_in_wire [origin, ⟨1, 0⟩] p = some a ∧
      length_to_point_in_wire [⟨1, 0⟩, ⟨2, 0⟩] p = some b ∧
      1 = (a + b) % 2 ^ 32) ∧
    (∀ p ∈ find_intersections [origin, ⟨1, 0⟩] [⟨1, 0⟩, ⟨2, 0⟩], ∀ a b,
      length_to_point_in_wire [origin, ⟨1, 0⟩] p = some a →
      length_to_point_in_wire [⟨1, 0⟩, ⟨2, 0⟩] p = some b →
      1 ≤ (a + b) % 2 ^ 32) :=
  (find_minimal_step_intersection_spec [origin, ⟨1, 0⟩] [⟨1, 0⟩, ⟨2, 0⟩]).2.1
    1 (by decide)

/-! ### Claim C9: the Point order identifies equidistant points -/

/-- C9: `Point::cmp` compares only Manhattan distances, so any two points at
equal distance from the origin — distinct or not — compare `Equal`; the order
cannot distinguish equidistant intersection points. -/
theorem point_cmp_eq_of_equidistant (p q : Point)
    (h : p.distance_from_origin = q.distance_from_origin) :
    Point.cmp p q = Ordering.eq := by
  unfold Point.cmp
  rw [h, Nat.compare_eq_eq]

/-- Witness for C9: the distinct points `(0,1)` and `(1,0)` are equidistant
and compare `Equal`. -/
theorem point_cmp_eq_of_equidistant_witness :
    Point.distance_from_origin ⟨0, 1⟩ = Point.distance_from_origin ⟨1, 0⟩ ∧
    Point.cmp ⟨0, 1⟩ ⟨1, 0⟩ = Ordering.eq ∧ (⟨0, 1⟩ : Point) ≠ ⟨1, 0⟩ :=
  ⟨by decide, point_cmp_eq_of_equidistant ⟨0, 1⟩ ⟨1, 0⟩ (by decide), by decide⟩

/-! ### Parsing of move tokens -/

theorem fromChar_cases (c : Char) (d : Direction)
    (h : Direction.fromChar c = some d) :
    (c = 'U' ∧ d = .up) ∨ (c = 'D' ∧ d = .down) ∨
    (c = 'L' ∧ d = .left) ∨ (c = 'R' ∧ d = .right) := by
  unfold Direction.fromChar at h
  split at h
  · exact Or.inl ⟨rfl, by injection h; simp_all⟩
  · exact Or.inr (Or.inl ⟨rfl, by injection h; simp_all⟩)
  · exact Or.inr (Or.inr (Or.inl ⟨rfl, by injection h; simp_all⟩))
  · exact Or.inr (Or.inr (Or.inr ⟨rfl, by injection h; simp_all⟩))
  · exact Option.noConfusion h

theorem isDirChar_of_fromChar (c : Char) (d : Direction)
    (h : Direction.fromChar c = some d) : isDirChar c := by
  unfold isDirChar
  rcases fromChar_cases c d h with ⟨rfl, _⟩ | ⟨rfl, _⟩ | ⟨rfl, _⟩ | ⟨rfl, _⟩ <;>
    simp

/-- Zeta-reduced equation for `parseU32` (definitional). -/
theorem parseU32_eq (s : List Char) :
    parseU32 s =
      if (if s.head? = some '+' then s.tail else s) = [] then none
      else if (if s.head? = some '+' then s.tail else s).all Char.isDigit then
        if decimalValue (if s.head? = some '+' then s.tail else s) < 2 ^ 32 then
          some (decimalValue (if s.head? = some '+' then s.tail else s))
        else none
      else none := rfl

theorem parseU32_spec (s : List Char) :
    (parseU32 s = none ↔ ¬ validU32Token s) ∧
    (∀ n, parseU32 s = some n →
      n = decimalValue (if s.head? = some '+' then s.tail else s)) := by
  rw [parseU32_eq]
  unfold validU32Token
  by_cases h1 : (if s.head? = some '+' then s.tail else s) = []
  · rw [if_pos h1]
    refine ⟨iff_of_true rfl ?_, ?_⟩
    · rintro ⟨hne, _, _⟩
      exact hne h1
    · intro n hn
      exact Option.noConfusion hn
  · rw [if_neg h1]
    by_cases h2 : (if s.head? = some '+' then s.tail else s).all Char.isDigit
    · rw [if_pos h2]
      by_cases h3 :
          decimalValue (if s.head? = some '+' then s.tail else s) < 2 ^ 32
      · rw [if_pos h3]
        refine ⟨iff_of_false (by simp) ?_, ?_⟩
        · intro hneg
          exact hneg ⟨h1, fun c hc => List.all_eq_true.mp h2 c hc, h3⟩
        · intro n hn
          have hv : decimalValue (if s.head? = some '+' then s.tail else s) = n := by
            injection hn
          exact hv.symm
      · rw [if_neg h3]
        refine ⟨iff_of_true rfl ?_, ?_⟩
        · rintro ⟨_, _, hlt⟩
          exact h3 hlt
        · intro n hn
          exact Option.noConfusion hn
    · rw [if_neg h2]
      refine ⟨iff_of_true rfl ?_, ?_⟩
      · rintro ⟨_, hdigits, _⟩
        exact h2 (List.all_eq_true.mpr fun c hc => hdigits c hc)
      · intro n hn
        exact Option.noConfusion hn

/-! ### Claim C8: parsing a move token -/

/-- C8 counterexample: the token `R4294967296` has a valid direction letter
and an all-digit remainder denoting a non-negative decimal integer, yet
parsing fails (u32 overflow); and the token `R+5` has a remainder that is not
a digit string (it starts with `'+'`), yet parsing succeeds with distance 5.
Both contradict "fails exactly when the letter is bad, the remainder is not a
valid non-negative decimal integer, or the token is empty". -/
theorem move_token_parse_counterexample :
    Move.fromToken ['R', '4', '2', '9', '4', '9', '6', '7', '2', '9', '6'] = none ∧
    (∀ c ∈ ['4', '2', '9', '4', '9', '6', '7', '2', '9', '6'], c.isDigit) ∧
    Move.fromToken ['R', '+', '5'] = some ⟨.right, 5⟩ ∧
    '+'.isDigit = false := by
  decide

/-- C8 (amended): parsing a move token fails exactly when the token is empty,
the leading letter is not one of U/D/L/R, or the remainder is not accepted by
Rust's `u32` parser (i.e. it is not, after an optional leading `'+'`, a
nonempty digit string whose value fits in 32 bits); otherwise it produces the
`Move` with the corresponding direction and the denoted value as distance. -/
theorem move_token_parse_spec (s : List Char) :
    (Move.fromToken s = none ↔
      ¬ ∃ c rest, s = c :: rest ∧ isDirChar c ∧ validU32Token rest) ∧
    (∀ m, Move.fromToken s = some m →
      ∃ c rest, s = c :: rest ∧
        ((c = 'U' ∧ m.direction = .up) ∨ (c = 'D' ∧ m.direction = .down) ∨
         (c = 'L' ∧ m.direction = .left) ∨ (c = 'R' ∧ m.direction = .right)) ∧
        m.distance = decimalValue
          (if rest.head? = some '+' then rest.tail else rest)) := by
  cases s with
  | nil =>
    constructor
    · refine iff_of_true rfl ?_
      rintro ⟨c, rest, heq, _, _⟩
      exact List.noConfusion heq
    · intro m hm
      exact Option.noConfusion hm
  | cons c rest =>
    have htok : Move.fromToken (c :: rest) =
        (Direction.fromChar c).bind fun d =>
          (parseU32 rest).bind fun n => some ⟨d, n⟩ := rfl
    cases hD : Direction.fromChar c with
    | none =>
      have hnd : ¬ isDirChar c := by
        intro hdir
        rcases hdir with h | h | h | h <;> subst h <;>
          simp [Direction.fromChar] at hD
      constructor
      · refine iff_of_true (by rw [htok, hD]; rfl) ?_
        rintro ⟨c', rest', heq, hdir, _⟩
        injection heq with h1 h2
        subst h1
        exact hnd hdir
      · intro m hm
        rw [htok, hD] at hm
        exact Option.noConfusion hm
    | some d =>
      have hdir : isDirChar c := isDirChar_of_fromChar c d hD
      cases hP : parseU32 rest with
      | none =>
        have hnv : ¬ validU32Token rest := (parseU32_spec rest).1.mp hP
        constructor
        · refine iff_of_true (by rw [htok, hD, hP]; rfl) ?_
          rintro ⟨c', rest', heq, _, hval⟩
          injection heq with h1 h2
          subst h2
          exact hnv hval
        · intro m hm
          rw [htok, hD, hP] at hm
          exact Option.noConfusion hm
      | some n =>
        have hval : validU32Token rest := by
          by_contra hc
          have hcontra := (parseU32_spec rest).1.mpr hc
          rw [hP] at hcontra
          exact Option.noConfusion hcontra
        have hn := (parseU32_spec rest).2 n hP
        constructor
        · refine iff_of_false ?_ ?_
          · rw [htok, hD, hP]
            simp
          · intro hno
            exact hno ⟨c, rest, rfl, hdir, hval⟩
        · intro m hm
          rw [htok, hD, hP] at hm
          simp only [Option.some_bind, Option.some.injEq] at hm
          subst hm
          exact ⟨c, rest, rfl, fromChar_cases c d hD, hn⟩

/-- Witness for C8 (amended) at the valid token `R75`. -/
theorem move_token_parse_spec_witness :
    ∃ c rest, ['R', '7', '5'] = c :: rest ∧
      ((c = 'U' ∧ (Move.mk .right 75).direction = .up) ∨
       (c = 'D' ∧ (Move.mk .right 75).direction = .down) ∨
       (c = 'L' ∧ (Move.mk .right 75).direction = .left) ∨
       (c = 'R' ∧ (Move.mk .right 75).direction = .right)) ∧
      (Move.mk .right 75).distance =
        decimalValue (if rest.head? = some '+' then rest.tail else rest) :=
  (move_token_parse_spec ['R', '7', '5']).2 ⟨.right, 75⟩ (by decide)

end CrossedWires
